import Mathlib

/-!
Verification of the CPU bilateral filter
(`monai/csrc/filtering/bilateral/bilateralfilter_cpu.cpp`).

The development shallowly embeds the C++ source: the `Indexer` struct becomes
explicit state passing over coordinate lists, float arithmetic is idealised as
real arithmetic (`ℝ`, `Real.exp`), and the strided raw-pointer addressing is
modelled at the level of (batch, channel, spatial-coordinate) triples, which is
faithful because input and output are distinct freshly allocated buffers and
all accesses go through the same stride maps.
-/

namespace Bilateral

/-- Embeds `Indexer::operator++(int)` (lines 27-44 of the source): walk the
axes starting at axis 0; increment the coordinate; if it is still below its
bound return `true`, otherwise reset the axis to 0 and carry into the next
axis; return `false` once every axis has overflowed.  The C++ mutates
`m_index` in place and returns a `bool`; here the pair (returned bool,
coordinate state after the call) is returned.  First argument: `m_sizes`,
second: `m_index`. -/
def indexerAdvance : List Nat → List Nat → Bool × List Nat
  | s :: ss, i :: is =>
    if i + 1 < s then (true, (i + 1) :: is)
    else
      let r := indexerAdvance ss is
      (r.1, 0 :: r.2)
  | _, _ => (false, [])

/-- Embeds the `Indexer` constructor (lines 20-25): `m_index` is allocated as
`new int[dimensions]{0}`, i.e. the all-zero coordinate. -/
def indexerInit (d : Nat) : List Nat := List.replicate d 0

/-- The trajectory of a `do { body } while (indexer++)` loop: the list of
coordinate states the body observes, starting from `index`.  The `fuel`
argument is an upper bound on the number of `operator++` calls (the C++ loop
needs no fuel because it provably terminates; every theorem below is stated
with sufficient fuel). -/
def runIndexer (sizes : List Nat) : List Nat → Nat → List (List Nat)
  | index, 0 => [index]
  | index, fuel + 1 =>
    let r := indexerAdvance sizes index
    if r.1 then index :: runIndexer sizes r.2 fuel else [index]

/-- The home/kernel enumeration as the source performs it: a fresh `Indexer`
over `sizes` driven by the post-checked loop.  The fuel `∏ max 1 sizeᵢ` is
provably sufficient for the full enumeration. -/
def indexerCoords (sizes : List Nat) : List (List Nat) :=
  runIndexer sizes (indexerInit sizes.length) ((sizes.map fun s => max 1 s).prod)

/-- Mixed-radix decoding of a linear index: the digit on axis 0 is
`n % size₀` (axis 0 varies fastest), matching the carry order of
`Indexer::operator++`. -/
def toCoord : List Nat → Nat → List Nat
  | [], _ => []
  | s :: ss, n => n % s :: toCoord ss (n / s)

/-- Mixed-radix encoding, inverse to `toCoord` on in-range coordinates. -/
def ofCoord : List Nat → List Nat → Nat
  | s :: ss, i :: is => i + s * ofCoord ss is
  | _, _ => 0

/-- The box `[0, size₀) × [0, size₁) × ⋯` enumerated in mixed-radix order,
axis 0 fastest. -/
def boxCoords (sizes : List Nat) : List (List Nat) :=
  (List.range sizes.prod).map (toCoord sizes)

/-- A coordinate bound that is maintained throughout the iteration even when
some axis has size 0: every digit is below `max 1 sizeᵢ`. -/
def CoordBound (index sizes : List Nat) : Prop :=
  List.Forall₂ (fun i s => i < max 1 s) index sizes

/-- Bounds-checked element access.  Modelled from the spec: §9 prescribes
"safe bounds-checked indexing" for element reads; the C++ source reads raw
strided memory, so a coordinate outside `[0, sizeᵢ)` on some axis is an
out-of-bounds access, the reimplementation's error branch. -/
def readGuarded (sizes : List Nat) (data : List Nat → ℝ) (coord : List Nat) :
    Option ℝ :=
  if coord.length = sizes.length ∧ ∀ p ∈ coord.zip sizes, p.1 < p.2 then
    some (data coord)
  else none

/-- Embeds line 78, `int windowSize = ceil(3 * spatialSigma);`.  Float
arithmetic is idealised over `ℝ`; for `spatialSigma > 0` the ceiling is
positive so the `Nat`-valued ceiling agrees with the C `int` (claim C7). -/
noncomputable def windowSize (spatialSigma : ℝ) : Nat := ⌈3 * spatialSigma⌉₊

/-- Embeds line 79, `int halfWindowSize = 0.5f * windowSize;`: the float
product `0.5f * windowSize` is exact and the float-to-int conversion
truncates toward zero, i.e. `windowSize / 2` in `Nat` division for the
nonnegative `windowSize` (proved as claim C7). -/
noncomputable def halfWindowSize (spatialSigma : ℝ) : Nat :=
  windowSize spatialSigma / 2

/-- Embeds line 80, `float spatialExpConstant = -1.0f / (2 * spatialSigma * spatialSigma);`. -/
noncomputable def spatialExpConstant (spatialSigma : ℝ) : ℝ :=
  -1 / (2 * spatialSigma * spatialSigma)

/-- Embeds line 81, `float colorExpConstant = -1.0f / (2 * colorSigma * colorSigma);`. -/
noncomputable def colorExpConstant (colorSigma : ℝ) : ℝ :=
  -1 / (2 * colorSigma * colorSigma)

/-- Embeds lines 94-98: `int distance = i - halfWindowSize;
gaussianKernel[i] = exp(distance * spatialExpConstant);`.  Note that the
source multiplies the *unsquared* signed distance by the exponent constant
(`distance`, not `distance * distance`); claim C1 is about this point. -/
noncomputable def gaussianKernel (spatialSigma : ℝ) (i : Nat) : ℝ :=
  Real.exp ((((i : Int) - (halfWindowSize spatialSigma : Int) : Int) : ℝ) *
    spatialExpConstant spatialSigma)

/-- Embeds line 140, `int neighbourIndex = homeIndex[i] + kernelIndex[i] - halfWindowSize;`
(`int` arithmetic, may be negative, hence `Int`). -/
def neighbourIndex (homeIdx kernelIdx halfWindow : Nat) : Int :=
  (homeIdx : Int) + kernelIdx - halfWindow

/-- Embeds line 141,
`int neighbourIndexClamped = std::min((int)spatialDimensionSizes[i] - 1, std::max(0, neighbourIndex));`. -/
def clampNeighbourIndex (size : Nat) (idx : Int) : Int :=
  min ((size : Int) - 1) (max 0 idx)

/-- The clamped neighbour coordinate of `home` for window coordinate `k`
(lines 136-143), at coordinate level: one clamped index per spatial axis. -/
noncomputable def neighbourCoord (spatialSigma : ℝ) (sizes home k : List Nat) :
    List Nat :=
  (sizes.zip (home.zip k)).map fun p =>
    (clampNeighbourIndex p.1
      (neighbourIndex p.2.1 p.2.2 (halfWindowSize spatialSigma))).toNat

/-- The window coordinates the inner do-while loop visits: an `Indexer` over
`kernelSize`, the array every entry of which is `windowSize`
(lines 84-89 and 131-175). -/
def kernelCoords (d w : Nat) : List (List Nat) :=
  indexerCoords (List.replicate d w)

/-- Embeds lines 147-153: squared euclidean color distance between the home
and neighbour channel vectors. -/
noncomputable def colorDistanceSquared (channelCount : Nat)
    (inp : Nat → List Nat → ℝ) (home nb : List Nat) : ℝ :=
  ((List.range channelCount).map fun i =>
    (inp i home - inp i nb) * (inp i home - inp i nb)).sum

/-- Embeds lines 157-162: the product over axes of the precomputed 1-D table
value at the window-local index `kernelIndex[i]`. -/
noncomputable def spatialWeight (spatialSigma : ℝ) (k : List Nat) : ℝ :=
  (k.map fun i => gaussianKernel spatialSigma i).prod

/-- Embeds lines 164-165: `totalWeight = spatialWeight * colorWeight`. -/
noncomputable def totalWeight (spatialSigma colorSigma : ℝ) (channelCount : Nat)
    (inp : Nat → List Nat → ℝ) (sizes home k : List Nat) : ℝ :=
  spatialWeight spatialSigma k *
    Real.exp (colorDistanceSquared channelCount inp home
        (neighbourCoord spatialSigma sizes home k) *
      colorExpConstant colorSigma)

/-- The accumulated `weightSum` after the full window pass (line 173 summed
over the enumeration of the inner `Indexer`). -/
noncomputable def weightSum (spatialSigma colorSigma : ℝ) (channelCount : Nat)
    (inp : Nat → List Nat → ℝ) (sizes home : List Nat) : ℝ :=
  ((kernelCoords sizes.length (windowSize spatialSigma)).map fun k =>
    totalWeight spatialSigma colorSigma channelCount inp sizes home k).sum

/-- The accumulated `valueSum[c]` after the full window pass (lines 168-171). -/
noncomputable def valueSum (spatialSigma colorSigma : ℝ) (channelCount : Nat)
    (inp : Nat → List Nat → ℝ) (sizes home : List Nat) (c : Nat) : ℝ :=
  ((kernelCoords sizes.length (windowSize spatialSigma)).map fun k =>
    inp c (neighbourCoord spatialSigma sizes home k) *
      totalWeight spatialSigma colorSigma channelCount inp sizes home k).sum

/-- The normalised output element written at lines 178-181:
`valueSum[c] / weightSum`. -/
noncomputable def outputValue (spatialSigma colorSigma : ℝ) (channelCount : Nat)
    (inp : Nat → List Nat → ℝ) (sizes home : List Nat) (c : Nat) : ℝ :=
  valueSum spatialSigma colorSigma channelCount inp sizes home c /
    weightSum spatialSigma colorSigma channelCount inp sizes home

/-- The tensor descriptor the filter works on (lines 62-71): batch axis 0,
channel axis 1, spatial axes 2..; the data is addressed at coordinate level
(batch, channel, spatial coordinate), which matches the strided addressing of
the source for the non-aliasing layouts the binding provides. -/
structure Tensor where
  batchCount : Nat
  channelCount : Nat
  spatialSizes : List Nat
  data : Nat → Nat → List Nat → ℝ

/-- The pair of buffers the loops touch: the input (only ever read) and the
output allocated by `torch::zeros_like(input)` (only ever written). -/
structure FilterState where
  inputBuf : Nat → Nat → List Nat → ℝ
  outputBuf : Nat → Nat → List Nat → ℝ

/-- Embeds the per-home write-out loop (lines 178-181): for every channel
`c < channelCount` the output element at `(b, c, home)` becomes
`valueSum[c] / weightSum` computed from the input buffer; every other output
element is untouched and the input buffer is only read. -/
noncomputable def writeOutput (spatialSigma colorSigma : ℝ) (channelCount : Nat)
    (sizes : List Nat) (b : Nat) (st : FilterState) (home : List Nat) :
    FilterState where
  inputBuf := st.inputBuf
  outputBuf := fun b' c' x' =>
    if b' = b ∧ x' = home ∧ c' < channelCount then
      outputValue spatialSigma colorSigma channelCount
        (fun ch y => st.inputBuf b ch y) sizes home c'
    else st.outputBuf b' c' x'

/-- Embeds the home-element do-while loop of one batch (lines 111-183). -/
noncomputable def processBatch (spatialSigma colorSigma : ℝ) (channelCount : Nat)
    (sizes : List Nat) (st : FilterState) (b : Nat) : FilterState :=
  (indexerCoords sizes).foldl
    (writeOutput spatialSigma colorSigma channelCount sizes b) st

/-- Embeds the batch loop (lines 106-184) started from the input buffer and
the zero-initialised output of `torch::zeros_like` (line 60). -/
noncomputable def runFilter (t : Tensor) (spatialSigma colorSigma : ℝ) :
    FilterState :=
  (List.range t.batchCount).foldl
    (processBatch spatialSigma colorSigma t.channelCount t.spatialSizes)
    { inputBuf := t.data, outputBuf := fun _ _ _ => 0 }

/-- Embeds `BilateralFilterCpu` (lines 57-187): run the loops and return the
output tensor, whose shape descriptors are those of the input
(`torch::zeros_like`). -/
noncomputable def BilateralFilterCpu (t : Tensor) (spatialSigma colorSigma : ℝ) :
    Tensor where
  batchCount := t.batchCount
  channelCount := t.channelCount
  spatialSizes := t.spatialSizes
  data := (runFilter t spatialSigma colorSigma).outputBuf

/-- Test input for the witnesses: 1 batch, 1 channel, one spatial axis of
size 1, constant value 5. -/
noncomputable def testTensor : Tensor where
  batchCount := 1
  channelCount := 1
  spatialSizes := [1]
  data := fun _ _ _ => 5

theorem toCoord_zero (sizes : List Nat) :
    toCoord sizes 0 = List.replicate sizes.length 0 := by
  induction sizes with
  | nil => rfl
  | cons s ss ih => simp [toCoord, ih, List.replicate_succ]

theorem advance_toCoord_step (sizes : List Nat) (hs : ∀ s ∈ sizes, 1 ≤ s) :
    ∀ n : Nat, n + 1 < sizes.prod →
      indexerAdvance sizes (toCoord sizes n) = (true, toCoord sizes (n + 1)) := by
  induction sizes with
  | nil =>
    intro n hn
    simp [List.prod_nil] at hn
  | cons s ss ih =>
    intro n hn
    have hs1 : 1 ≤ s := hs s (List.mem_cons_self s ss)
    have hss : ∀ x ∈ ss, 1 ≤ x := fun x hx => hs x (List.mem_cons_of_mem s hx)
    rw [List.prod_cons] at hn
    have hsplit : n = n % s + s * (n / s) := by
      rw [Nat.add_comm, Nat.div_add_mod]
    by_cases hlt : n % s + 1 < s
    · have hmod : (n + 1) % s = n % s + 1 := by
        conv_lhs => rw [hsplit]
        rw [Nat.add_right_comm, Nat.add_mul_mod_self_left, Nat.mod_eq_of_lt hlt]
      have hdiv : (n + 1) / s = n / s := by
        conv_lhs => rw [hsplit]
        rw [Nat.add_right_comm, Nat.add_mul_div_left _ _ (by omega : 0 < s),
          Nat.div_eq_of_lt hlt, Nat.zero_add]
      simp only [toCoord, indexerAdvance, if_pos hlt, hmod, hdiv]
    · have hmlt : n % s < s := Nat.mod_lt n (by omega)
      have hcarry : n % s + 1 = s := by omega
      have key : n + 1 = s * (n / s + 1) := by
        have h3 : s * (n / s + 1) = s * (n / s) + s := Nat.mul_succ s (n / s)
        linarith [hsplit, hcarry, h3]
      have hmod : (n + 1) % s = 0 := by rw [key]; exact Nat.mul_mod_right s _
      have hdiv : (n + 1) / s = n / s + 1 := by
        rw [key]; exact Nat.mul_div_cancel_left _ (by omega)
      have hbound : n / s + 1 < ss.prod := by
        have hx : s * (n / s + 1) < s * ss.prod := key ▸ hn
        exact Nat.lt_of_mul_lt_mul_left hx
      have hrec := ih hss (n / s) hbound
      simp only [toCoord, indexerAdvance, if_neg hlt, hrec, hmod, hdiv]

theorem advance_toCoord_last (sizes : List Nat) (hs : ∀ s ∈ sizes, 1 ≤ s) :
    ∀ n : Nat, n + 1 = sizes.prod →
      indexerAdvance sizes (toCoord sizes n) = (false, List.replicate sizes.length 0) := by
  induction sizes with
  | nil =>
    intro n hn
    simp only [List.prod_nil] at hn
    have : n = 0 := by omega
    subst this
    rfl
  | cons s ss ih =>
    intro n hn
    have hs1 : 1 ≤ s := hs s (List.mem_cons_self s ss)
    have hss : ∀ x ∈ ss, 1 ≤ x := fun x hx => hs x (List.mem_cons_of_mem s hx)
    rw [List.prod_cons] at hn
    have hp : 0 < ss.prod := List.prod_pos fun x hx => hss x hx
    obtain ⟨t, rfl⟩ : ∃ t, s = t + 1 := ⟨s - 1, by omega⟩
    obtain ⟨p, hp2⟩ : ∃ p, ss.prod = p + 1 := ⟨ss.prod - 1, by omega⟩
    have hdecomp : n = t + (t + 1) * p := by
      have h4 : (t + 1) * (p + 1) = (t + 1) * p + (t + 1) := Nat.mul_succ _ _
      rw [hp2] at hn
      linarith [h4, hn]
    have hmod : n % (t + 1) = t := by
      rw [hdecomp, Nat.add_mul_mod_self_left, Nat.mod_eq_of_lt (by omega)]
    have hdiv : n / (t + 1) = p := by
      rw [hdecomp, Nat.add_mul_div_left _ _ (by omega : 0 < t + 1),
        Nat.div_eq_of_lt (by omega), Nat.zero_add]
    have hnolt : ¬ n % (t + 1) + 1 < t + 1 := by omega
    have hrec := ih hss p (by omega)
    simp only [toCoord, indexerAdvance, if_neg hnolt, hmod, hdiv, hrec,
      List.length_cons, List.replicate_succ]
    rw [if_neg (lt_irrefl (t + 1))]

theorem ofCoord_toCoord (sizes : List Nat) (hs : ∀ s ∈ sizes, 1 ≤ s) :
    ∀ n : Nat, n < sizes.prod → ofCoord sizes (toCoord sizes n) = n := by
  induction sizes with
  | nil =>
    intro n hn
    simp only [List.prod_nil] at hn
    simp only [toCoord, ofCoord]
    omega
  | cons s ss ih =>
    intro n hn
    have hs1 : 1 ≤ s := hs s (List.mem_cons_self s ss)
    have hss : ∀ x ∈ ss, 1 ≤ x := fun x hx => hs x (List.mem_cons_of_mem s hx)
    rw [List.prod_cons] at hn
    have hdiv : n / s < ss.prod := by
      rw [Nat.div_lt_iff_lt_mul (by omega : 0 < s)]
      exact lt_of_lt_of_le hn (le_of_eq (Nat.mul_comm s ss.prod))
    simp only [toCoord, ofCoord, ih hss (n / s) hdiv, Nat.mod_add_div]

theorem toCoord_bounded (sizes : List Nat) (hs : ∀ s ∈ sizes, 1 ≤ s) (n : Nat) :
    List.Forall₂ (· < ·) (toCoord sizes n) sizes := by
  induction sizes generalizing n with
  | nil => exact List.Forall₂.nil
  | cons s ss ih =>
    have hs1 : 1 ≤ s := hs s (List.mem_cons_self s ss)
    have hss : ∀ x ∈ ss, 1 ≤ x := fun x hx => hs x (List.mem_cons_of_mem s hx)
    exact List.Forall₂.cons (Nat.mod_lt n (by omega)) (ih hss (n / s))

theorem toCoord_ofCoord (sizes : List Nat) (hs : ∀ s ∈ sizes, 1 ≤ s) :
    ∀ k : List Nat, List.Forall₂ (· < ·) k sizes →
      toCoord sizes (ofCoord sizes k) = k ∧ ofCoord sizes k < sizes.prod := by
  induction sizes with
  | nil =>
    intro k hk
    cases hk
    exact ⟨rfl, by decide⟩
  | cons s ss ih =>
    intro k hk
    cases hk with
    | cons hik htail =>
      rename_i i is
      have hs1 : 1 ≤ s := hs s (List.mem_cons_self s ss)
      have hss : ∀ x ∈ ss, 1 ≤ x := fun x hx => hs x (List.mem_cons_of_mem s hx)
      obtain ⟨hrec, hlt⟩ := ih hss is htail
      constructor
      · simp only [ofCoord, toCoord, Nat.add_mul_mod_self_left,
          Nat.mod_eq_of_lt hik, Nat.add_mul_div_left _ _ (by omega : 0 < s),
          Nat.div_eq_of_lt hik, Nat.zero_add, hrec]
      · simp only [ofCoord, List.prod_cons]
        calc i + s * ofCoord ss is < s + s * ofCoord ss is := by omega
        _ = s * (ofCoord ss is + 1) := by rw [Nat.mul_succ, Nat.add_comm]
        _ ≤ s * ss.prod := Nat.mul_le_mul_left s (by omega)

theorem mem_boxCoords (sizes : List Nat) (hs : ∀ s ∈ sizes, 1 ≤ s) (k : List Nat) :
    k ∈ boxCoords sizes ↔ List.Forall₂ (· < ·) k sizes := by
  constructor
  · intro hk
    obtain ⟨n, _, rfl⟩ := List.mem_map.mp hk
    exact toCoord_bounded sizes hs n
  · intro hk
    obtain ⟨hrec, hlt⟩ := toCoord_ofCoord sizes hs k hk
    exact List.mem_map.mpr ⟨ofCoord sizes k, List.mem_range.mpr hlt, hrec⟩

theorem boxCoords_nodup (sizes : List Nat) (hs : ∀ s ∈ sizes, 1 ≤ s) :
    (boxCoords sizes).Nodup := by
  refine List.Nodup.map_on ?_ (List.nodup_range _)
  intro m hm n hn hmn
  rw [← ofCoord_toCoord sizes hs m (List.mem_range.mp hm), hmn,
    ofCoord_toCoord sizes hs n (List.mem_range.mp hn)]

theorem runIndexer_eq_range (sizes : List Nat) (hs : ∀ s ∈ sizes, 1 ≤ s) :
    ∀ (fuel n : Nat), n < sizes.prod → sizes.prod ≤ n + 1 + fuel →
      runIndexer sizes (toCoord sizes n) fuel =
        (List.range' n (sizes.prod - n)).map (toCoord sizes) := by
  intro fuel
  induction fuel with
  | zero =>
    intro n hn hfuel
    have : sizes.prod - n = 1 := by omega
    rw [this]
    simp [runIndexer, List.range'_one]
  | succ fuel ih =>
    intro n hn hfuel
    rcases Nat.lt_or_ge (n + 1) sizes.prod with hlt | hge
    · have hstep := advance_toCoord_step sizes hs n hlt
      have hrange : sizes.prod - n = (sizes.prod - (n + 1)) + 1 := by omega
      rw [runIndexer, hstep]
      simp only [if_pos]
      rw [ih (n + 1) hlt (by omega), hrange, List.range'_succ, List.map_cons]
    · have heq : n + 1 = sizes.prod := by omega
      have hlast := advance_toCoord_last sizes hs n heq
      have hrange : sizes.prod - n = 1 := by omega
      rw [runIndexer, hlast]
      simp only [Bool.false_eq_true, if_neg]
      rw [hrange]
      simp [List.range'_one]

theorem indexerCoords_eq_boxCoords (sizes : List Nat) (hs : ∀ s ∈ sizes, 1 ≤ s) :
    indexerCoords sizes = boxCoords sizes := by
  have hmap : sizes.map (fun s => max 1 s) = sizes := by
    rw [List.map_congr_left fun s hsx => max_eq_right (hs s hsx)]
    exact List.map_id sizes
  have hp : 0 < sizes.prod := List.prod_pos fun x hx => hs x hx
  unfold indexerCoords boxCoords
  rw [hmap, indexerInit, ← toCoord_zero sizes,
    runIndexer_eq_range sizes hs sizes.prod 0 hp (by omega),
    Nat.sub_zero, List.range_eq_range']

theorem runIndexer_head (sizes index : List Nat) (fuel : Nat) :
    (runIndexer sizes index fuel).head? = some index := by
  cases fuel with
  | zero => rfl
  | succ fuel =>
    rw [runIndexer]
    by_cases h : (indexerAdvance sizes index).1 <;> simp [h]

theorem runIndexer_ne_nil (sizes index : List Nat) (fuel : Nat) :
    runIndexer sizes index fuel ≠ [] := by
  cases fuel with
  | zero => simp [runIndexer]
  | succ fuel =>
    rw [runIndexer]
    by_cases h : (indexerAdvance sizes index).1 <;> simp [h]

theorem advance_length (sizes : List Nat) :
    ∀ index : List Nat, index.length = sizes.length →
      (indexerAdvance sizes index).2.length = sizes.length := by
  induction sizes with
  | nil =>
    intro index h
    rw [List.length_eq_zero.mp h]
    rfl
  | cons s ss ih =>
    intro index h
    cases index with
    | nil => simp at h
    | cons i is =>
      simp only [List.length_cons, Nat.add_right_cancel_iff] at h
      by_cases hlt : i + 1 < s
      · simp [indexerAdvance, if_pos hlt, h]
      · simp [indexerAdvance, if_neg hlt, ih is h]

theorem mem_runIndexer_length (sizes : List Nat) :
    ∀ (fuel : Nat) (index : List Nat), index.length = sizes.length →
      ∀ x ∈ runIndexer sizes index fuel, x.length = sizes.length := by
  intro fuel
  induction fuel with
  | zero =>
    intro index h x hx
    simp only [runIndexer, List.mem_singleton] at hx
    exact hx ▸ h
  | succ fuel ih =>
    intro index h x hx
    rw [runIndexer] at hx
    by_cases hb : (indexerAdvance sizes index).1
    · rw [if_pos hb] at hx
      rcases List.mem_cons.mp hx with rfl | hx2
      · exact h
      · exact ih _ (advance_length sizes index h) x hx2
    · rw [if_neg hb] at hx
      simp only [List.mem_singleton] at hx
      exact hx ▸ h

theorem coordBound_init (sizes : List Nat) :
    CoordBound (indexerInit sizes.length) sizes := by
  induction sizes with
  | nil => exact List.Forall₂.nil
  | cons s ss ih =>
    exact List.Forall₂.cons (by omega) ih

theorem advance_max_one (sizes : List Nat) :
    ∀ index : List Nat, CoordBound index sizes →
      indexerAdvance sizes index =
        indexerAdvance (sizes.map fun s => max 1 s) index := by
  induction sizes with
  | nil =>
    intro index h
    cases h
    rfl
  | cons s ss ih =>
    intro index h
    cases h with
    | cons hi htail =>
      rename_i i is
      rcases Nat.lt_or_ge s 1 with hz | hpos
      · have hs0 : s = 0 := by omega
        subst hs0
        have hi0 : i = 0 := by simpa using hi
        subst hi0
        simp only [List.map_cons, indexerAdvance,
          if_neg (by omega : ¬ (0:Nat) + 1 < 0),
          if_neg (by omega : ¬ (0:Nat) + 1 < max 1 0)]
        rw [ih is htail]
      · have hmax : max 1 s = s := max_eq_right hpos
        simp only [List.map_cons, hmax, indexerAdvance]
        by_cases hlt : i + 1 < s
        · rw [if_pos hlt, if_pos hlt]
        · rw [if_neg hlt, if_neg hlt, ih is htail]

theorem advance_preserves_bound (sizes : List Nat) :
    ∀ index : List Nat, CoordBound index sizes →
      CoordBound (indexerAdvance sizes index).2 sizes := by
  induction sizes with
  | nil =>
    intro index h
    cases h
    exact List.Forall₂.nil
  | cons s ss ih =>
    intro index h
    cases h with
    | cons hi htail =>
      rename_i i is
      by_cases hlt : i + 1 < s
      · simp only [indexerAdvance, if_pos hlt]
        exact List.Forall₂.cons (by omega) htail
      · simp only [indexerAdvance, if_neg hlt]
        exact List.Forall₂.cons (by omega) (ih is htail)

theorem runIndexer_max_one (sizes : List Nat) :
    ∀ (fuel : Nat) (index : List Nat), CoordBound index sizes →
      runIndexer sizes index fuel =
        runIndexer (sizes.map fun s => max 1 s) index fuel := by
  intro fuel
  induction fuel with
  | zero => intro index _; rfl
  | succ fuel ih =>
    intro index h
    rw [runIndexer, runIndexer, ← advance_max_one sizes index h]
    by_cases hb : (indexerAdvance sizes index).1
    · rw [if_pos hb, if_pos hb, ih _ (advance_preserves_bound sizes index h)]
    · rw [if_neg hb, if_neg hb]

theorem indexerCoords_max_one (sizes : List Nat) :
    indexerCoords sizes = indexerCoords (sizes.map fun s => max 1 s) := by
  have hlen : (sizes.map fun s => max 1 s).length = sizes.length := by
    rw [List.length_map]
  have hidem : (sizes.map fun s => max 1 s).map (fun s => max 1 s) =
      sizes.map fun s => max 1 s := by
    rw [List.map_map]
    refine List.map_congr_left fun s _ => ?_
    simp only [Function.comp_apply]
    omega
  unfold indexerCoords
  rw [hlen, hidem, runIndexer_max_one sizes _ _ (coordBound_init sizes)]

theorem advance_false_reset (sizes : List Nat) :
    ∀ index : List Nat, index.length = sizes.length →
      (indexerAdvance sizes index).1 = false →
      (indexerAdvance sizes index).2 = List.replicate sizes.length 0 := by
  induction sizes with
  | nil =>
    intro index h _
    rw [List.length_eq_zero.mp h]
    rfl
  | cons s ss ih =>
    intro index h hf
    cases index with
    | nil => simp at h
    | cons i is =>
      simp only [List.length_cons, Nat.add_right_cancel_iff] at h
      by_cases hlt : i + 1 < s
      · simp [indexerAdvance, if_pos hlt] at hf
      · simp only [indexerAdvance, if_neg hlt] at hf ⊢
        rw [List.length_cons, List.replicate_succ]
        exact congrArg (0 :: ·) (ih is h hf)

theorem zip_replicate_zero_mem (sizes : List Nat) (hz : (0 : Nat) ∈ sizes) :
    ((0 : Nat), (0 : Nat)) ∈ (List.replicate sizes.length 0).zip sizes := by
  induction sizes with
  | nil => simp at hz
  | cons s ss ih =>
    rw [List.length_cons, List.replicate_succ, List.zip_cons_cons]
    rcases List.mem_cons.mp hz with rfl | hz2
    · exact List.mem_cons_self _ _
    · exact List.mem_cons_of_mem _ (ih hz2)

/-- C5: the iterator started at the all-zero coordinate and driven as the
post-checked loop condition enumerates exactly `∏ sizeᵢ` coordinates, each
exactly once (`Nodup`), in mixed-radix order with axis 0 varying fastest
(`toCoord`, whose axis-0 digit is `n % size₀`); `operator++` returns `true`
while a coordinate remains and returns `false` exactly after the last
coordinate. -/
theorem C5_iterator_enumerates_box (sizes : List Nat) (d : Nat)
    (hd : sizes.length = d) (hd1 : 1 ≤ d) (hs : ∀ s ∈ sizes, 1 ≤ s) :
    indexerCoords sizes = (List.range sizes.prod).map (toCoord sizes) ∧
    (indexerCoords sizes).length = sizes.prod ∧
    (indexerCoords sizes).Nodup ∧
    toCoord sizes 0 = indexerInit d ∧
    (∀ n : Nat, n + 1 < sizes.prod →
      indexerAdvance sizes (toCoord sizes n) = (true, toCoord sizes (n + 1))) ∧
    indexerAdvance sizes (toCoord sizes (sizes.prod - 1)) =
      (false, indexerInit d) := by
  subst hd
  have hbox := indexerCoords_eq_boxCoords sizes hs
  have hp : 0 < sizes.prod := List.prod_pos fun x hx => hs x hx
  refine ⟨hbox, ?_, ?_, ?_, advance_toCoord_step sizes hs, ?_⟩
  · rw [hbox]
    simp [boxCoords]
  · rw [hbox]
    exact boxCoords_nodup sizes hs
  · exact toCoord_zero sizes
  · exact advance_toCoord_last sizes hs (sizes.prod - 1) (by omega)

/-- C5 witness: for sizes `[2, 3]` the loop visits the six coordinates in
mixed-radix order with axis 0 fastest. -/
theorem C5_witness :
    indexerCoords [2, 3] = [[0, 0], [1, 0], [0, 1], [1, 1], [0, 2], [1, 2]] ∧
    (indexerCoords [2, 3]).length = 6 := by
  obtain ⟨h1, h2, -, -, -, -⟩ :=
    C5_iterator_enumerates_box [2, 3] 2 rfl (by omega) (by decide)
  constructor
  · rw [h1]; decide
  · rw [h2]; decide

/-- C9: whenever `operator++` returns `false` (exhaustion), the coordinate
vector has been reset to all zeros on every axis — exactly the state the
`Indexer` constructor produces — so the post-exhaustion state is
indistinguishable from a freshly constructed iterator and a further advance
sequence re-enumerates the same coordinates. -/
theorem C9_exhausted_state_is_fresh (sizes index : List Nat)
    (hlen : index.length = sizes.length)
    (hfalse : (indexerAdvance sizes index).1 = false) :
    (indexerAdvance sizes index).2 = indexerInit sizes.length ∧
    ∀ fuel : Nat,
      runIndexer sizes (indexerAdvance sizes index).2 fuel =
        runIndexer sizes (indexerInit sizes.length) fuel := by
  have h := advance_false_reset sizes index hlen hfalse
  exact ⟨h, fun fuel => by rw [h]; rfl⟩

/-- C9 witness: advancing the one-axis iterator over size 2 past its last
coordinate `[1]` returns `false` and resets the state to the fresh `[0]`. -/
theorem C9_witness :
    (indexerAdvance [2] [1]).1 = false ∧
    (indexerAdvance [2] [1]).2 = indexerInit 1 := by
  refine ⟨by decide, ?_⟩
  exact (C9_exhausted_state_is_fresh [2] [1] rfl (by decide)).1

/-- C10 counterexample: with spatial sizes `[0, 2]` the home loop body runs
twice per batch (it visits `[0, 0]` and `[0, 1]`), not `max 1 (0·2) = 1`
times as the claim's count formula states. -/
theorem C10_counterexample :
    (indexerCoords [0, 2]).length = 2 ∧
    (indexerCoords [0, 2]).length ≠ max 1 (List.prod [0, 2]) := by
  decide

/-- C10 (amended): if some spatial axis has size 0, the post-checked home
loop still executes — its first body execution sees the all-zero coordinate —
and the number of home coordinates processed per batch is `∏ max 1 sizeᵢ`
rather than `∏ sizeᵢ` (each zero-size axis behaves like a size-1 axis since
the carry always propagates through it); the bounds-checked element access at
the all-zero coordinate is out of bounds on the empty axis, so the guarded
error branch is reachable. -/
theorem C10_zero_axis_still_runs (sizes : List Nat) (data : List Nat → ℝ)
    (hz : (0 : Nat) ∈ sizes) :
    1 ≤ (indexerCoords sizes).length ∧
    (indexerCoords sizes).length = (sizes.map fun s => max 1 s).prod ∧
    (indexerCoords sizes).head? = some (List.replicate sizes.length 0) ∧
    readGuarded sizes data (List.replicate sizes.length 0) = none := by
  have hs1 : ∀ s ∈ sizes.map fun s => max 1 s, 1 ≤ s := by
    intro s hsx
    obtain ⟨x, _, rfl⟩ := List.mem_map.mp hsx
    omega
  have hlen2 : (indexerCoords sizes).length = (sizes.map fun s => max 1 s).prod := by
    rw [indexerCoords_max_one, indexerCoords_eq_boxCoords _ hs1]
    simp [boxCoords]
  refine ⟨?_, hlen2, ?_, ?_⟩
  · rw [hlen2]
    exact List.prod_pos fun x hx => hs1 x hx
  · exact runIndexer_head _ _ _
  · rw [readGuarded, if_neg]
    rintro ⟨-, hall⟩
    exact absurd (hall _ (zip_replicate_zero_mem sizes hz)) (by omega)

/-- C10 witness (for the amended statement) at spatial sizes `[0, 2]`. -/
theorem C10_witness :
    (0 : Nat) ∈ [0, 2] ∧
    (1 ≤ (indexerCoords [0, 2]).length ∧
      (indexerCoords [0, 2]).length = ([0, 2].map fun s => max 1 s).prod ∧
      (indexerCoords [0, 2]).head? =
        some (List.replicate (List.length [0, 2]) 0) ∧
      readGuarded [0, 2] (fun _ => 0) (List.replicate (List.length [0, 2]) 0) =
        none) :=
  ⟨by decide, C10_zero_axis_still_runs [0, 2] (fun _ => 0) (by decide)⟩

/-- C7: the derived window geometry.  `windowSize = ceil(3*spatialSigma)`
and `halfWindowSize = floor(0.5 * windowSize)` (truncation toward zero of a
nonnegative value is the floor). -/
theorem C7_window_geometry (spatialSigma : ℝ) (hσ : 0 < spatialSigma) :
    ((windowSize spatialSigma : Int) = ⌈3 * spatialSigma⌉) ∧
    halfWindowSize spatialSigma =
      ⌊(0.5 : ℝ) * (windowSize spatialSigma : ℝ)⌋₊ ∧
    ((halfWindowSize spatialSigma : Int) =
      ⌊(0.5 : ℝ) * (windowSize spatialSigma : ℝ)⌋) := by
  have h3 : (0 : ℝ) ≤ 3 * spatialSigma := by positivity
  have h1 : (windowSize spatialSigma : Int) = ⌈3 * spatialSigma⌉ :=
    Int.natCast_ceil_eq_ceil h3
  have harg : (0.5 : ℝ) * (windowSize spatialSigma : ℝ) =
      (windowSize spatialSigma : ℝ) / ((2 : Nat) : ℝ) := by
    push_cast
    ring
  have h2 : halfWindowSize spatialSigma =
      ⌊(0.5 : ℝ) * (windowSize spatialSigma : ℝ)⌋₊ := by
    rw [harg, Nat.floor_div_nat, Nat.floor_natCast]
    rfl
  refine ⟨h1, h2, ?_⟩
  have hnn : (0 : ℝ) ≤ (0.5 : ℝ) * (windowSize spatialSigma : ℝ) := by positivity
  rw [h2]
  exact Int.natCast_floor_eq_floor hnn

/-- C7 witness at `spatialSigma = 1`. -/
theorem C7_witness :
    (0 : ℝ) < 1 ∧
    (((windowSize 1 : Int) = ⌈(3 : ℝ) * 1⌉) ∧
      halfWindowSize 1 = ⌊(0.5 : ℝ) * (windowSize 1 : ℝ)⌋₊ ∧
      ((halfWindowSize 1 : Int) = ⌊(0.5 : ℝ) * (windowSize 1 : ℝ)⌋)) :=
  ⟨by norm_num, C7_window_geometry 1 (by norm_num)⟩

theorem windowSize_one : windowSize 1 = 3 := by
  unfold windowSize
  rw [mul_one]
  norm_num

theorem halfWindowSize_one : halfWindowSize 1 = 1 := by
  unfold halfWindowSize
  rw [windowSize_one]

theorem spatialExpConstant_one : spatialExpConstant 1 = -(1 / 2) := by
  unfold spatialExpConstant
  norm_num

/-- C1: the precomputed table entry is NOT the claimed Gaussian of the
squared distance.  At `spatialSigma = 1` (so `windowSize = 3`,
`halfWindowSize = 1`) and `i = 0` the signed distance is `-1`: the source
stores `exp(distance * spatialExpConstant) = exp(1/2)`, while the claimed
formula `exp(distance^2 * spatialExpConstant)` gives `exp(-(1/2))`.  The two
differ, so the table entry violates the claim (the source forgot to square
`distance`). -/
theorem C1_kernel_misses_square :
    gaussianKernel 1 0 = Real.exp (1 / 2) ∧
    Real.exp (((((0 : Int) - (halfWindowSize 1 : Int)) : ℝ) ^ 2) *
        spatialExpConstant 1) = Real.exp (-(1 / 2)) ∧
    gaussianKernel 1 0 ≠
      Real.exp (((((0 : Int) - (halfWindowSize 1 : Int)) : ℝ) ^ 2) *
        spatialExpConstant 1) := by
  have h1 : gaussianKernel 1 0 = Real.exp (1 / 2) := by
    unfold gaussianKernel
    rw [halfWindowSize_one, spatialExpConstant_one]
    norm_num
  have harg : ((((0 : Int) - (halfWindowSize 1 : Int)) : ℝ) ^ 2) *
      spatialExpConstant 1 = -(1 / 2) := by
    rw [halfWindowSize_one, spatialExpConstant_one]
    norm_num
  refine ⟨h1, by rw [harg], ?_⟩
  rw [h1, harg, Ne, Real.exp_eq_exp]
  norm_num

/-- C4: the neighbour index used for addressing is
`min(size - 1, max(0, home + windowCoord - halfWindowSize))` — boundary
replication — and for any axis of size ≥ 1 it always lies inside
`[0, size-1]`, whatever the unclamped candidate is. -/
theorem C4_neighbour_clamped_in_bounds (size homeIdx kernelIdx halfWindow : Nat)
    (hsize : 1 ≤ size) :
    clampNeighbourIndex size (neighbourIndex homeIdx kernelIdx halfWindow) =
      min ((size : Int) - 1)
        (max 0 ((homeIdx : Int) + kernelIdx - halfWindow)) ∧
    0 ≤ clampNeighbourIndex size (neighbourIndex homeIdx kernelIdx halfWindow) ∧
    clampNeighbourIndex size (neighbourIndex homeIdx kernelIdx halfWindow) ≤
      (size : Int) - 1 := by
  refine ⟨rfl, ?_, min_le_left _ _⟩
  unfold clampNeighbourIndex
  have h1 : (0 : Int) ≤ (size : Int) - 1 := by omega
  exact le_min h1 (le_max_left 0 _)

/-- C4 witness: axis of size 1, home 0, window coordinate 5, half window 2 —
the unclamped candidate 3 is past the last index and is clamped into
`[0, 0]`. -/
theorem C4_witness :
    0 ≤ clampNeighbourIndex 1 (neighbourIndex 0 5 2) ∧
    clampNeighbourIndex 1 (neighbourIndex 0 5 2) ≤ (1 : Int) - 1 :=
  ⟨(C4_neighbour_clamped_in_bounds 1 0 5 2 (by decide)).2.1,
   (C4_neighbour_clamped_in_bounds 1 0 5 2 (by decide)).2.2⟩

theorem gaussianKernel_pos (spatialSigma : ℝ) (i : Nat) :
    0 < gaussianKernel spatialSigma i :=
  Real.exp_pos _

theorem spatialWeight_pos (spatialSigma : ℝ) (k : List Nat) :
    0 < spatialWeight spatialSigma k := by
  refine List.prod_pos fun a ha => ?_
  obtain ⟨i, -, rfl⟩ := List.mem_map.mp ha
  exact gaussianKernel_pos spatialSigma i

theorem totalWeight_pos (spatialSigma colorSigma : ℝ) (channelCount : Nat)
    (inp : Nat → List Nat → ℝ) (sizes home k : List Nat) :
    0 < totalWeight spatialSigma colorSigma channelCount inp sizes home k :=
  mul_pos (spatialWeight_pos spatialSigma k) (Real.exp_pos _)

theorem kernelCoords_ne_nil (d w : Nat) : kernelCoords d w ≠ [] :=
  runIndexer_ne_nil _ _ _

theorem weightSum_pos (spatialSigma colorSigma : ℝ) (channelCount : Nat)
    (inp : Nat → List Nat → ℝ) (sizes home : List Nat) :
    0 < weightSum spatialSigma colorSigma channelCount inp sizes home := by
  refine List.sum_pos _ (fun x hx => ?_) ?_
  · obtain ⟨k, -, rfl⟩ := List.mem_map.mp hx
    exact totalWeight_pos spatialSigma colorSigma channelCount inp sizes home k
  · intro hnil
    exact kernelCoords_ne_nil sizes.length (windowSize spatialSigma)
      (List.map_eq_nil_iff.mp hnil)

theorem forall₂_lt_replicate (n a b : Nat) (h : a < b) :
    List.Forall₂ (· < ·) (List.replicate n a) (List.replicate n b) := by
  induction n with
  | zero => exact List.Forall₂.nil
  | succ n ih => exact List.Forall₂.cons h ih

theorem gaussianKernel_center (spatialSigma : ℝ) :
    gaussianKernel spatialSigma (halfWindowSize spatialSigma) = 1 := by
  unfold gaussianKernel
  rw [sub_self]
  norm_num

theorem spatialWeight_center (spatialSigma : ℝ) (d : Nat) :
    spatialWeight spatialSigma
      (List.replicate d (halfWindowSize spatialSigma)) = 1 := by
  unfold spatialWeight
  rw [List.map_replicate, List.prod_replicate, gaussianKernel_center, one_pow]

theorem colorDistanceSquared_self (channelCount : Nat)
    (inp : Nat → List Nat → ℝ) (home : List Nat) :
    colorDistanceSquared channelCount inp home home = 0 := by
  unfold colorDistanceSquared
  simp

theorem clamp_center (x y h : Nat) (hxy : x < y) :
    (clampNeighbourIndex y (neighbourIndex x h h)).toNat = x := by
  unfold clampNeighbourIndex neighbourIndex
  have h1 : (x : Int) + h - h = (x : Int) := by ring
  rw [h1, max_eq_right (by positivity : (0 : Int) ≤ (x : Int)),
    min_eq_right (by omega : (x : Int) ≤ (y : Int) - 1)]
  omega

theorem neighbourCoord_center (spatialSigma : ℝ) (sizes home : List Nat)
    (hb : List.Forall₂ (· < ·) home sizes) :
    neighbourCoord spatialSigma sizes home
      (List.replicate sizes.length (halfWindowSize spatialSigma)) = home := by
  induction hb with
  | nil => rfl
  | cons hxy htail ih =>
    rename_i x y xs ys
    rw [List.length_cons, List.replicate_succ]
    unfold neighbourCoord
    rw [List.zip_cons_cons, List.zip_cons_cons, List.map_cons]
    exact congrArg₂ (· :: ·) (clamp_center x y _ hxy) ih

theorem totalWeight_center (spatialSigma colorSigma : ℝ) (channelCount : Nat)
    (inp : Nat → List Nat → ℝ) (sizes home : List Nat)
    (hb : List.Forall₂ (· < ·) home sizes) :
    totalWeight spatialSigma colorSigma channelCount inp sizes home
      (List.replicate sizes.length (halfWindowSize spatialSigma)) = 1 := by
  unfold totalWeight
  rw [neighbourCoord_center spatialSigma sizes home hb,
    colorDistanceSquared_self, zero_mul, Real.exp_zero, mul_one,
    spatialWeight_center]

/-- C2: for valid sigmas and any in-bounds home coordinate the accumulated
`weightSum` after the window pass is at least 1 — the offset-zero window
coordinate (all axes at `halfWindowSize`) addresses the home element itself
and contributes total weight `exp(0)·exp(0) = 1`, and every other
contribution is positive — hence `weightSum` is strictly positive and the
per-channel division `valueSum[c] / weightSum` never divides by zero. -/
theorem C2_weightSum_ge_one (spatialSigma colorSigma : ℝ) (channelCount : Nat)
    (inp : Nat → List Nat → ℝ) (sizes home : List Nat)
    (hσs : 0 < spatialSigma) (hσc : 0 < colorSigma)
    (hd : 1 ≤ sizes.length) (hb : List.Forall₂ (· < ·) home sizes) :
    1 ≤ weightSum spatialSigma colorSigma channelCount inp sizes home ∧
    0 < weightSum spatialSigma colorSigma channelCount inp sizes home ∧
    weightSum spatialSigma colorSigma channelCount inp sizes home ≠ 0 := by
  have hw1 : 0 < windowSize spatialSigma := by
    unfold windowSize
    exact Nat.ceil_pos.mpr (by positivity)
  have hh : halfWindowSize spatialSigma < windowSize spatialSigma := by
    unfold halfWindowSize
    exact Nat.div_lt_self (by omega) (by omega)
  have hsz : ∀ s ∈ List.replicate sizes.length (windowSize spatialSigma), 1 ≤ s := by
    intro s hsx
    rw [List.eq_of_mem_replicate hsx]
    omega
  have hk0 : List.replicate sizes.length (halfWindowSize spatialSigma) ∈
      kernelCoords sizes.length (windowSize spatialSigma) := by
    unfold kernelCoords
    rw [indexerCoords_eq_boxCoords _ hsz]
    exact (mem_boxCoords _ hsz _).mpr (forall₂_lt_replicate _ _ _ hh)
  have htw1 := totalWeight_center spatialSigma colorSigma channelCount inp
    sizes home hb
  have hge : 1 ≤ weightSum spatialSigma colorSigma channelCount inp sizes home := by
    unfold weightSum
    have hnn : ∀ a ∈ (kernelCoords sizes.length (windowSize spatialSigma)).map
        fun k => totalWeight spatialSigma colorSigma channelCount inp sizes home k,
        0 ≤ a := by
      intro a ha
      obtain ⟨k, -, rfl⟩ := List.mem_map.mp ha
      exact le_of_lt (totalWeight_pos spatialSigma colorSigma channelCount inp
        sizes home k)
    calc (1 : ℝ) = totalWeight spatialSigma colorSigma channelCount inp sizes home
          (List.replicate sizes.length (halfWindowSize spatialSigma)) := htw1.symm
    _ ≤ _ := List.single_le_sum hnn _ (List.mem_map_of_mem _ hk0)
  exact ⟨hge, by linarith, by linarith⟩

/-- C2 witness: one spatial axis of size 1, home `[0]`, constant zero input,
both sigmas 1. -/
theorem C2_witness :
    1 ≤ weightSum 1 1 1 (fun _ _ => 0) [1] [0] ∧
    0 < weightSum 1 1 1 (fun _ _ => 0) [1] [0] ∧
    weightSum 1 1 1 (fun _ _ => 0) [1] [0] ≠ 0 :=
  C2_weightSum_ge_one 1 1 1 (fun _ _ => 0) [1] [0] (by norm_num) (by norm_num)
    (by decide) (List.Forall₂.cons (by decide) List.Forall₂.nil)

/-- C6: every per-neighbour total weight (spatial weight times color weight)
is strictly positive, and the written output value is a weighted average of
the input values at the clamped neighbourhood, hence it lies between any
lower and any upper bound of those values (in particular between their min
and max). -/
theorem C6_weighted_average (spatialSigma colorSigma : ℝ) (channelCount : Nat)
    (inp : Nat → List Nat → ℝ) (sizes home : List Nat) (c : Nat)
    (hσs : 0 < spatialSigma) (hσc : 0 < colorSigma) :
    (∀ k ∈ kernelCoords sizes.length (windowSize spatialSigma),
      0 < totalWeight spatialSigma colorSigma channelCount inp sizes home k) ∧
    ∀ lo hi : ℝ,
      (∀ k ∈ kernelCoords sizes.length (windowSize spatialSigma),
        lo ≤ inp c (neighbourCoord spatialSigma sizes home k) ∧
          inp c (neighbourCoord spatialSigma sizes home k) ≤ hi) →
      lo ≤ outputValue spatialSigma colorSigma channelCount inp sizes home c ∧
        outputValue spatialSigma colorSigma channelCount inp sizes home c ≤ hi := by
  have hW := weightSum_pos spatialSigma colorSigma channelCount inp sizes home
  refine ⟨fun k _ => totalWeight_pos spatialSigma colorSigma channelCount inp
    sizes home k, fun lo hi hbound => ?_⟩
  have hlo : lo * weightSum spatialSigma colorSigma channelCount inp sizes home ≤
      valueSum spatialSigma colorSigma channelCount inp sizes home c := by
    unfold valueSum weightSum
    rw [← List.sum_map_mul_left]
    exact List.sum_le_sum fun k hk =>
      mul_le_mul_of_nonneg_right (hbound k hk).1
        (le_of_lt (totalWeight_pos spatialSigma colorSigma channelCount inp
          sizes home k))
  have hhi : valueSum spatialSigma colorSigma channelCount inp sizes home c ≤
      hi * weightSum spatialSigma colorSigma channelCount inp sizes home := by
    unfold valueSum weightSum
    rw [← List.sum_map_mul_left]
    exact List.sum_le_sum fun k hk =>
      mul_le_mul_of_nonneg_right (hbound k hk).2
        (le_of_lt (totalWeight_pos spatialSigma colorSigma channelCount inp
          sizes home k))
  unfold outputValue
  exact ⟨(le_div_iff₀ hW).mpr hlo, (div_le_iff₀ hW).mpr hhi⟩

/-- C6 witness: one spatial axis of size 1, constant zero input, both sigmas
1; the positivity part is instantiated at window coordinate `[0]` and the
average is squeezed between the bounds 0 and 0. -/
theorem C6_witness :
    0 < totalWeight 1 1 1 (fun _ _ => 0) [1] [0] [0] ∧
    0 ≤ outputValue 1 1 1 (fun _ _ => 0) [1] [0] 0 ∧
    outputValue 1 1 1 (fun _ _ => 0) [1] [0] 0 ≤ 0 := by
  have h := C6_weighted_average 1 1 1 (fun _ _ => 0) [1] [0] 0 (by norm_num)
    (by norm_num)
  have hm : [0] ∈ kernelCoords (List.length [1]) (windowSize 1) := by
    rw [windowSize_one]
    decide
  have hb := h.2 0 0 fun k _ => ⟨le_refl 0, le_refl 0⟩
  exact ⟨h.1 [0] hm, hb.1, hb.2⟩

theorem foldWrite_inputBuf (spatialSigma colorSigma : ℝ) (channelCount : Nat)
    (sizes : List Nat) (b : Nat) :
    ∀ (homes : List (List Nat)) (st : FilterState),
      (homes.foldl (writeOutput spatialSigma colorSigma channelCount sizes b)
        st).inputBuf = st.inputBuf := by
  intro homes
  induction homes with
  | nil => intro st; rfl
  | cons h hs ih =>
    intro st
    rw [List.foldl_cons, ih]
    rfl

theorem foldWrite_notouch (spatialSigma colorSigma : ℝ) (channelCount : Nat)
    (sizes : List Nat) (b : Nat) :
    ∀ (homes : List (List Nat)) (st : FilterState) (b0 c0 : Nat) (x : List Nat),
      (b0 ≠ b ∨ x ∉ homes) →
      (homes.foldl (writeOutput spatialSigma colorSigma channelCount sizes b)
          st).outputBuf b0 c0 x = st.outputBuf b0 c0 x := by
  intro homes
  induction homes with
  | nil => intro st b0 c0 x _; rfl
  | cons h hs ih =>
    intro st b0 c0 x hx
    have hx2 : b0 ≠ b ∨ x ∉ hs := by
      rcases hx with hb | hmem
      · exact Or.inl hb
      · exact Or.inr fun hm => hmem (List.mem_cons_of_mem _ hm)
    have hcond : ¬ (b0 = b ∧ x = h ∧ c0 < channelCount) := by
      rcases hx with hb | hmem
      · rintro ⟨rfl, -, -⟩
        exact hb rfl
      · rintro ⟨-, rfl, -⟩
        exact hmem (List.mem_cons_self _ _)
    rw [List.foldl_cons, ih _ b0 c0 x hx2]
    simp only [writeOutput, if_neg hcond]

theorem foldWrite_read (spatialSigma colorSigma : ℝ) (channelCount : Nat)
    (sizes : List Nat) (b : Nat) :
    ∀ (homes : List (List Nat)) (st : FilterState) (c0 : Nat) (x : List Nat),
      homes.Nodup → x ∈ homes → c0 < channelCount →
      (homes.foldl (writeOutput spatialSigma colorSigma channelCount sizes b)
          st).outputBuf b c0 x =
        outputValue spatialSigma colorSigma channelCount
          (fun ch y => st.inputBuf b ch y) sizes x c0 := by
  intro homes
  induction homes with
  | nil =>
    intro st c0 x _ hx _
    simp at hx
  | cons h hs ih =>
    intro st c0 x hnd hx hc
    rw [List.foldl_cons]
    rcases List.mem_cons.mp hx with rfl | hx2
    · have hnot : x ∉ hs := (List.nodup_cons.mp hnd).1
      rw [foldWrite_notouch spatialSigma colorSigma channelCount sizes b hs _
        b c0 x (Or.inr hnot)]
      simp [writeOutput, hc]
    · rw [ih _ c0 x (List.nodup_cons.mp hnd).2 hx2 hc]
      rfl

theorem processBatch_inputBuf (spatialSigma colorSigma : ℝ) (channelCount : Nat)
    (sizes : List Nat) (st : FilterState) (b : Nat) :
    (processBatch spatialSigma colorSigma channelCount sizes st b).inputBuf =
      st.inputBuf :=
  foldWrite_inputBuf spatialSigma colorSigma channelCount sizes b _ st

theorem foldBatch_inputBuf (spatialSigma colorSigma : ℝ) (channelCount : Nat)
    (sizes : List Nat) :
    ∀ (bs : List Nat) (st : FilterState),
      (bs.foldl (processBatch spatialSigma colorSigma channelCount sizes)
        st).inputBuf = st.inputBuf := by
  intro bs
  induction bs with
  | nil => intro st; rfl
  | cons b' bs' ih =>
    intro st
    rw [List.foldl_cons, ih, processBatch_inputBuf]

theorem foldBatch_notouch (spatialSigma colorSigma : ℝ) (channelCount : Nat)
    (sizes : List Nat) :
    ∀ (bs : List Nat) (st : FilterState) (b0 c0 : Nat) (x : List Nat),
      b0 ∉ bs →
      (bs.foldl (processBatch spatialSigma colorSigma channelCount sizes)
          st).outputBuf b0 c0 x = st.outputBuf b0 c0 x := by
  intro bs
  induction bs with
  | nil => intro st b0 c0 x _; rfl
  | cons b' bs' ih =>
    intro st b0 c0 x hb0
    have hne : b0 ≠ b' := fun h => hb0 (h ▸ List.mem_cons_self _ _)
    rw [List.foldl_cons, ih _ b0 c0 x fun h => hb0 (List.mem_cons_of_mem _ h)]
    exact foldWrite_notouch spatialSigma colorSigma channelCount sizes b' _ st
      b0 c0 x (Or.inl hne)

theorem foldBatch_read (spatialSigma colorSigma : ℝ) (channelCount : Nat)
    (sizes : List Nat) :
    ∀ (bs : List Nat) (st : FilterState) (b0 c0 : Nat) (x : List Nat),
      bs.Nodup → b0 ∈ bs → c0 < channelCount →
      (indexerCoords sizes).Nodup → x ∈ indexerCoords sizes →
      (bs.foldl (processBatch spatialSigma colorSigma channelCount sizes)
          st).outputBuf b0 c0 x =
        outputValue spatialSigma colorSigma channelCount
          (fun ch y => st.inputBuf b0 ch y) sizes x c0 := by
  intro bs
  induction bs with
  | nil =>
    intro st b0 c0 x _ hb0 _ _ _
    simp at hb0
  | cons b' bs' ih =>
    intro st b0 c0 x hnd hb0 hc hndc hx
    rw [List.foldl_cons]
    rcases List.mem_cons.mp hb0 with rfl | hb02
    · have hnot : b0 ∉ bs' := (List.nodup_cons.mp hnd).1
      rw [foldBatch_notouch spatialSigma colorSigma channelCount sizes bs' _
        b0 c0 x hnot]
      exact foldWrite_read spatialSigma colorSigma channelCount sizes b0 _ st
        c0 x hndc hx hc
    · rw [ih _ b0 c0 x (List.nodup_cons.mp hnd).2 hb02 hc hndc hx]
      simp only [processBatch_inputBuf]

theorem runFilter_read (t : Tensor) (spatialSigma colorSigma : ℝ)
    (b c : Nat) (x : List Nat) (hs : ∀ s ∈ t.spatialSizes, 1 ≤ s)
    (hb : b < t.batchCount) (hc : c < t.channelCount)
    (hx : x ∈ indexerCoords t.spatialSizes) :
    (runFilter t spatialSigma colorSigma).outputBuf b c x =
      outputValue spatialSigma colorSigma t.channelCount
        (fun ch y => t.data b ch y) t.spatialSizes x c := by
  have hndc : (indexerCoords t.spatialSizes).Nodup := by
    rw [indexerCoords_eq_boxCoords _ hs]
    exact boxCoords_nodup _ hs
  exact foldBatch_read spatialSigma colorSigma t.channelCount t.spatialSizes
    (List.range t.batchCount) _ b c x (List.nodup_range _)
    (List.mem_range.mpr hb) hc hndc hx

/-- C8: the filter call leaves the input buffer completely unchanged and
returns a distinct, freshly allocated output tensor with identical batch
count, channel count and spatial size vector; every valid output element is
populated with the normalised value computed from the unmodified input. -/
theorem C8_frame_and_shape (t : Tensor) (spatialSigma colorSigma : ℝ)
    (hs : ∀ s ∈ t.spatialSizes, 1 ≤ s) :
    (BilateralFilterCpu t spatialSigma colorSigma).batchCount = t.batchCount ∧
    (BilateralFilterCpu t spatialSigma colorSigma).channelCount =
      t.channelCount ∧
    (BilateralFilterCpu t spatialSigma colorSigma).spatialSizes =
      t.spatialSizes ∧
    (runFilter t spatialSigma colorSigma).inputBuf = t.data ∧
    ∀ b c : Nat, ∀ home : List Nat,
      b < t.batchCount → c < t.channelCount →
      home ∈ indexerCoords t.spatialSizes →
      (BilateralFilterCpu t spatialSigma colorSigma).data b c home =
        outputValue spatialSigma colorSigma t.channelCount
          (fun ch y => t.data b ch y) t.spatialSizes home c := by
  refine ⟨rfl, rfl, rfl, ?_, ?_⟩
  · exact foldBatch_inputBuf spatialSigma colorSigma t.channelCount
      t.spatialSizes (List.range t.batchCount) _
  · intro b c home hb hc hx
    exact runFilter_read t spatialSigma colorSigma b c home hs hb hc hx

/-- C8 witness at the concrete test tensor and sigmas 1. -/
theorem C8_witness :
    (BilateralFilterCpu testTensor 1 1).batchCount = testTensor.batchCount ∧
    (BilateralFilterCpu testTensor 1 1).spatialSizes = testTensor.spatialSizes ∧
    (runFilter testTensor 1 1).inputBuf = testTensor.data := by
  have h := C8_frame_and_shape testTensor 1 1
    (by intro s hsx; simp only [testTensor] at hsx; simp at hsx; omega)
  exact ⟨h.1, h.2.2.1, h.2.2.2.1⟩

theorem kernelCoords_mem_length (d w : Nat) :
    ∀ k ∈ kernelCoords d w, k.length = d := by
  intro k hk
  have hlen : (indexerInit (List.replicate d w).length).length =
      (List.replicate d w).length := by
    simp [indexerInit]
  have := mem_runIndexer_length (List.replicate d w) _ _ hlen k hk
  simpa using this

theorem clamp_single (a h : Nat) :
    (clampNeighbourIndex 1 (neighbourIndex 0 a h)).toNat = 0 := by
  unfold clampNeighbourIndex neighbourIndex
  have h4 : ((1 : Nat) : Int) - 1 = 0 := by norm_num
  rw [h4, min_eq_left (le_max_left 0 _)]
  rfl

theorem neighbourCoord_single (spatialSigma : ℝ) (sizes : List Nat) :
    ∀ k : List Nat, (∀ s ∈ sizes, s = 1) → k.length = sizes.length →
      neighbourCoord spatialSigma sizes (List.replicate sizes.length 0) k =
        List.replicate sizes.length 0 := by
  induction sizes with
  | nil => intro k _ _; rfl
  | cons s ss ih =>
    intro k hone hk
    cases k with
    | nil => simp at hk
    | cons a ks =>
      have hs1 : s = 1 := hone s (List.mem_cons_self s ss)
      subst hs1
      rw [List.length_cons, List.replicate_succ]
      unfold neighbourCoord
      rw [List.zip_cons_cons, List.zip_cons_cons, List.map_cons]
      refine congrArg₂ (· :: ·) (clamp_single a _) ?_
      exact ih ks (fun x hx => hone x (List.mem_cons_of_mem _ hx))
        (by simpa using hk)

theorem outputValue_single_pixel (spatialSigma colorSigma : ℝ)
    (channelCount : Nat) (inp : Nat → List Nat → ℝ) (sizes : List Nat)
    (hone : ∀ s ∈ sizes, s = 1) (c : Nat) :
    outputValue spatialSigma colorSigma channelCount inp sizes
        (List.replicate sizes.length 0) c =
      inp c (List.replicate sizes.length 0) := by
  have hnb : ∀ k ∈ kernelCoords sizes.length (windowSize spatialSigma),
      neighbourCoord spatialSigma sizes (List.replicate sizes.length 0) k =
        List.replicate sizes.length 0 := fun k hk =>
    neighbourCoord_single spatialSigma sizes k hone
      (kernelCoords_mem_length _ _ k hk)
  have hv : valueSum spatialSigma colorSigma channelCount inp sizes
      (List.replicate sizes.length 0) c =
      inp c (List.replicate sizes.length 0) *
        weightSum spatialSigma colorSigma channelCount inp sizes
          (List.replicate sizes.length 0) := by
    unfold valueSum weightSum
    rw [← List.sum_map_mul_left]
    refine congrArg List.sum (List.map_congr_left fun k hk => ?_)
    rw [hnb k hk]
  unfold outputValue
  rw [hv]
  exact mul_div_cancel_right₀ _
    (ne_of_gt (weightSum_pos spatialSigma colorSigma channelCount inp sizes _))

theorem replicate_zero_lt (sizes : List Nat) (hs : ∀ s ∈ sizes, 1 ≤ s) :
    List.Forall₂ (· < ·) (List.replicate sizes.length 0) sizes := by
  induction sizes with
  | nil => exact List.Forall₂.nil
  | cons s ss ih =>
    rw [List.length_cons, List.replicate_succ]
    refine List.Forall₂.cons ?_ (ih fun x hx => hs x (List.mem_cons_of_mem s hx))
    have := hs s (List.mem_cons_self s ss)
    omega

/-- C3: for a single-pixel spatial domain (every spatial axis of size 1) and
valid sigmas the filter output equals the input exactly at every batch and
channel — the only neighbour is the home element itself, so the weighted
average reduces to the home value. -/
theorem C3_single_pixel_identity (t : Tensor) (spatialSigma colorSigma : ℝ)
    (hσs : 0 < spatialSigma) (hσc : 0 < colorSigma)
    (hone : ∀ s ∈ t.spatialSizes, s = 1) (hd : 1 ≤ t.spatialSizes.length)
    (b c : Nat) (hb : b < t.batchCount) (hc : c < t.channelCount) :
    (BilateralFilterCpu t spatialSigma colorSigma).data b c
        (List.replicate t.spatialSizes.length 0) =
      t.data b c (List.replicate t.spatialSizes.length 0) := by
  have hs : ∀ s ∈ t.spatialSizes, 1 ≤ s := fun s hsx => by rw [hone s hsx]
  have hx : List.replicate t.spatialSizes.length 0 ∈
      indexerCoords t.spatialSizes := by
    rw [indexerCoords_eq_boxCoords _ hs]
    exact (mem_boxCoords _ hs _).mpr (replicate_zero_lt _ hs)
  have hread := runFilter_read t spatialSigma colorSigma b c
    (List.replicate t.spatialSizes.length 0) hs hb hc hx
  have hdata : (BilateralFilterCpu t spatialSigma colorSigma).data =
      (runFilter t spatialSigma colorSigma).outputBuf := rfl
  rw [hdata, hread]
  exact outputValue_single_pixel spatialSigma colorSigma t.channelCount
    (fun ch y => t.data b ch y) t.spatialSizes hone c

/-- C3 witness at the concrete single-pixel test tensor and sigmas 1. -/
theorem C3_witness :
    (BilateralFilterCpu testTensor 1 1).data 0 0
        (List.replicate testTensor.spatialSizes.length 0) =
      testTensor.data 0 0 (List.replicate testTensor.spatialSizes.length 0) :=
  C3_single_pixel_identity testTensor 1 1 (by norm_num) (by norm_num)
    (by intro s hsx; simp only [testTensor] at hsx; simpa using hsx)
    (by simp [testTensor]) 0 0 (by simp [testTensor]) (by simp [testTensor])

end Bilateral
